import Mathlib

/-
Shallow embedding of the go-maildir package (maildir.go).

Strings are modelled as lists of characters (Go iterates runes in
strings.FieldsFunc; all characters relevant to the claims are ASCII, where
Go bytes and runes coincide). The filesystem state of one maildir is a pair
of name lists, the contents of the subdirectories named new and cur.
Fallible operations return Except GoError; operations that can hit a Go
runtime panic (index out of range) return Option, with none standing for
the panic.
-/

namespace Maildir

abbrev Name := List Char

/-- The union of the error values produced by the package: plain I/O errors
(os.Open, os.Rename, os.Hostname, rand read), KeyError (a key matching
N different files), and FlagError (a non-standard info section, with the
Experimental field set when the section starts with the digit 1). -/
inductive GoError where
  | ioError (msg : Name)
  | keyError (key : Name) (n : Nat)
  | flagError (info : Name) (experimental : Bool)
deriving DecidableEq, Repr

instance {ε α : Type} [DecidableEq ε] [DecidableEq α] :
    DecidableEq (Except ε α) := fun a b =>
  match a, b with
  | .ok x, .ok y =>
    if h : x = y then .isTrue (by rw [h]) else .isFalse (by simp [h])
  | .ok _, .error _ => .isFalse (by simp)
  | .error _, .ok _ => .isFalse (by simp)
  | .error e, .error f =>
    if h : e = f then .isTrue (by rw [h]) else .isFalse (by simp [h])

/-- Accumulator worker for fieldsFunc: acc holds the characters of the
current field in reverse. A separator character emits the pending field if
it is nonempty; the end of the input emits the last pending field. -/
def fieldsFuncAux (p : Char → Bool) : Name → Name → List Name
  | [], acc => if acc = [] then [] else [acc.reverse]
  | c :: rest, acc =>
    if p c then
      if acc = [] then fieldsFuncAux p rest []
      else acc.reverse :: fieldsFuncAux p rest []
    else fieldsFuncAux p rest (c :: acc)

/-- strings.FieldsFunc: splits around maximal runs of characters satisfying
the predicate; empty fields never appear in the result. -/
def fieldsFunc (p : Char → Bool) (l : Name) : List Name :=
  fieldsFuncAux p l []

/-- Fuel-indexed worker for replaceAll; every step consumes at least one
character of s, so fuel at least the length of s makes the base case
unreachable. -/
def replaceAllFuel : Nat → Name → Name → Name → Name
  | 0, s, _, _ => s
  | fuel + 1, s, pat, rep =>
    match s with
    | [] => []
    | c :: rest =>
      if pat ≠ [] ∧ pat.isPrefixOf (c :: rest) then
        rep ++ replaceAllFuel fuel ((c :: rest).drop pat.length) pat rep
      else
        c :: replaceAllFuel fuel rest pat rep

/-- strings.Replace with count -1: scan left to right, replacing every
non-overlapping occurrence of pat by rep. -/
def replaceAll (s pat rep : Name) : Name :=
  replaceAllFuel s.length s pat rep

/-- encoding/hex digit table: 0-9 then a-f. -/
def hexDigit (n : Nat) : Char :=
  if n < 10 then Char.ofNat (48 + n) else Char.ofNat (87 + n)

/-- hex.EncodeToString over a byte list. -/
def hexEncode (bs : List Nat) : Name :=
  bs.flatMap (fun b => [hexDigit (b / 16), hexDigit (b % 16)])

/-- Contents of one maildir Dir: the file names inside the new and cur
subdirectories. -/
structure MState where
  newFiles : List Name
  curFiles : List Name
deriving DecidableEq, Repr

/-- The path filepath.Join(string(d), "cur", n) for a directory handle d
and a file name n inside cur. -/
def curPath (d : Name) (n : Name) : Name :=
  d ++ ('/' :: 'c' :: 'u' :: 'r' :: '/' :: n)

/-- The info suffix "2,S" appended by Unseen. -/
def seenSuffix : Name := ['2', ',', 'S']

/-- The loop body of Dir.Unseen (maildir.go lines 67-78). names is the
Readdirnames snapshot still to process, st the directory state, keys the
accumulated key list, err the current value of the err variable (note the
source reuses one err variable across iterations of the loop and returns
its final value). fail says which renames the OS refuses; a failed rename
leaves the state unchanged. none models a Go panic: indexing n[0] of an
empty name or split[0] of an empty split. -/
def unseenLoop (sep : Char) (fail : Name → Bool) :
    List Name → MState → List Name → Option GoError →
    Option (List Name × Option GoError × MState)
  | [], st, keys, err => some (keys, err, st)
  | n :: rest, st, keys, err =>
    match n with
    | [] => none
    | c :: _ =>
      if c = '.' then unseenLoop sep fail rest st keys err
      else
        match (fieldsFunc (fun r => r == sep) n).head? with
        | none => none
        | some k =>
          if fail n then
            unseenLoop sep fail rest st (keys ++ [k]) (some (.ioError n))
          else
            unseenLoop sep fail rest
              { newFiles := st.newFiles.erase n,
                curFiles := st.curFiles ++ [n ++ sep :: seenSuffix] }
              (keys ++ [k]) none

/-- Dir.Unseen on an already-opened, successfully listed new directory:
iterates over the snapshot of new, moving each non-dotfile into cur with
suffix sep followed by "2,S" and collecting its key (the first field of
the name split on the configured Separator). -/
def Unseen (sep : Char) (fail : Name → Bool) (st : MState) :
    Option (List Name × Option GoError × MState) :=
  unseenLoop sep fail st.newFiles st [] none

/-- The loop body of Dir.Keys (maildir.go lines 92-100). Note the source
splits on the literal colon character here, not on the configurable
Separator variable; the definition therefore takes no separator argument.
none models the Go panics on n[0] or split[0]. -/
def keysLoop : List Name → Option (List Name)
  | [] => some []
  | n :: rest =>
    match n with
    | [] => none
    | c :: _ =>
      if c = '.' then keysLoop rest
      else
        match (fieldsFunc (fun r => r == ':') n).head? with
        | none => none
        | some k => (keysLoop rest).map (fun ks => k :: ks)

/-- Dir.Keys on a successfully listed cur directory. -/
def Keys (curFiles : List Name) : Option (List Name) :=
  keysLoop curFiles

/-- The match list of filepath.Glob(filepath.Join(d, "cur", key + "*")),
for keys containing no glob metacharacters: the cur entries having key as
a prefix. (Glob returns the matches sorted; the claims depend only on the
number of matches and on the single match when there is exactly one, both
invariant under sorting, so the directory order is kept.) -/
def matchesOf (curFiles : List Name) (key : Name) : List Name :=
  curFiles.filter (fun n => key.isPrefixOf n)

/-- Dir.Filename (maildir.go lines 105-114): glob key followed by star in
cur; exactly one match yields its full path, any other count yields
KeyError carrying the key and the count. -/
def Filename (d : Name) (curFiles : List Name) (key : Name) :
    Except GoError Name :=
  match matchesOf curFiles key with
  | [m] => .ok (curPath d m)
  | ms => .error (.keyError key ms.length)

/-- The switch statement of Dir.Flags (maildir.go lines 174-185) applied to
the second field of the split filename. In the Go source the second index
of the field is only evaluated when the length check has already failed,
so the get? form is exact. The final case converts the tail to runes and
sorts it ascending (sort.Sort on a rune slice; on characters the sorted
permutation is unique, so insertion sort denotes the same list). -/
def flagsOfInfo (info : Name) : Except GoError (List Char) :=
  if info.length < 2 ∨ info[1]? ≠ some ',' then .error (.flagError info false)
  else if info[0]? = some '1' then .error (.flagError info true)
  else if info[0]? ≠ some '2' then .error (.flagError info false)
  else .ok (List.insertionSort (fun a b => a ≤ b) (info.drop 2))

/-- Dir.Flags (maildir.go lines 166-186): resolve the key to a full path,
split the WHOLE path on the literal colon character (not the configurable
Separator), and run the info-section switch on the second field. none
models the Go panic on split[1] when the split has fewer than two
fields. -/
def Flags (d : Name) (curFiles : List Name) (key : Name) :
    Option (Except GoError (List Char)) :=
  match Filename d curFiles key with
  | .error e => some (.error e)
  | .ok filename =>
    match fieldsFunc (fun r => r == ':') filename with
    | _ :: info :: _ => some (flagsOfInfo info)
    | _ => none

/-- Dir.SetInfo (maildir.go lines 190-198): resolve the key via Filename
(propagating its error), then rename the resolved file to
key, Separator, info inside cur. The result is the new cur listing. -/
def SetInfo (sep : Char) (curFiles : List Name) (key info : Name) :
    Except GoError (List Name) :=
  match matchesOf curFiles key with
  | [m] => .ok ((curFiles.erase m) ++ [key ++ sep :: info])
  | ms => .error (.keyError key ms.length)

/-- Key (maildir.go lines 204-226), parameterised over its environment:
the current Unix time, the os.Hostname result (the returned string and the
returned error: on failure the string is empty), the pid, the current
counter value, and the outcome of reading 10 random bytes. The source
tests the hostname error with the condition err != err, which is never
true, and this is transcribed literally. The two strings.Replace calls are
transcribed with the character each Go octal escape denotes: the literal
backslash-zero-five-seven in Go source is the slash character itself and
backslash-zero-seven-two is the colon character itself, so both patterns
and replacements below are those single characters. -/
def Key (now : Int) (host : Name) (hostErr : Option GoError)
    (pid idv : Int) (randRes : Except GoError (List Nat)) :
    Except GoError Name :=
  let key1 := (toString now).toList ++ ['.']
  if hostErr ≠ hostErr then
    .error ((hostErr).getD (.ioError []))
  else
    let host1 := replaceAll host ['/'] ['/']
    let host2 := replaceAll host1 [':'] [':']
    let key2 := key1 ++ host2 ++ ['.'] ++ (toString pid).toList ++
      (toString idv).toList
    match randRes with
    | .error e => .error e
    | .ok bs => .ok (key2 ++ hexEncode bs)

/-- The key a name yields in Unseen: the first field of the name split on
the separator (and the empty name when the split is empty, a case in which
the loop itself panics). -/
def keyOf (sep : Char) (n : Name) : Name :=
  ((fieldsFunc (fun r => r == sep) n).head?).getD []

/- Splitting lemmas for fieldsFunc. -/

lemma fieldsFuncAux_nosep (p : Char → Bool) (l : Name)
    (hl : ∀ c ∈ l, p c = false) :
    ∀ acc : Name, fieldsFuncAux p l acc =
      if acc.reverse ++ l = [] then [] else [acc.reverse ++ l] := by
  induction l with
  | nil =>
    intro acc
    by_cases h : acc = [] <;> simp [fieldsFuncAux, h]
  | cons c rest ih =>
    intro acc
    have hc : p c = false := hl c (by simp)
    have hrest : ∀ x ∈ rest, p x = false := fun x hx => hl x (by simp [hx])
    simp [fieldsFuncAux, hc, ih hrest (c :: acc)]

lemma fieldsFunc_nosep (p : Char → Bool) (l : Name)
    (hl : ∀ c ∈ l, p c = false) (hne : l ≠ []) :
    fieldsFunc p l = [l] := by
  simp [fieldsFunc, fieldsFuncAux_nosep p l hl [], hne]

lemma fieldsFuncAux_sep (p : Char → Bool) (sep : Char) (ys : Name)
    (hsep : p sep = true) :
    ∀ (xs : Name), (∀ c ∈ xs, p c = false) → ∀ acc : Name,
    fieldsFuncAux p (xs ++ sep :: ys) acc =
      (if acc.reverse ++ xs = [] then [] else [acc.reverse ++ xs]) ++
        fieldsFuncAux p ys [] := by
  intro xs
  induction xs with
  | nil =>
    intro _ acc
    by_cases h : acc = [] <;> simp [fieldsFuncAux, hsep, h]
  | cons c xs' ih =>
    intro hxs acc
    have hc : p c = false := hxs c (by simp)
    have hxs' : ∀ x ∈ xs', p x = false := fun x hx => hxs x (by simp [hx])
    simp [fieldsFuncAux, hc, ih hxs' (c :: acc)]

lemma fieldsFunc_sep (p : Char → Bool) (sep : Char) (xs ys : Name)
    (hsep : p sep = true) (hxs : ∀ c ∈ xs, p c = false) (hne : xs ≠ []) :
    fieldsFunc p (xs ++ sep :: ys) = xs :: fieldsFunc p ys := by
  simp [fieldsFunc, fieldsFuncAux_sep p sep ys hsep xs hxs [], hne]

lemma isPrefixOf_self_append (l t : Name) : l.isPrefixOf (l ++ t) = true := by
  induction l with
  | nil => simp [List.isPrefixOf]
  | cons c rest ih => simp [List.isPrefixOf, ih]

lemma filter_singleton_erase (q : Name → Bool) (l : List Name) (m : Name)
    (h : l.filter q = [m]) : (l.erase m).filter q = [] := by
  induction l with
  | nil => simp at h
  | cons a t ih =>
    by_cases hq : q a
    · rw [List.filter_cons_of_pos hq] at h
      have ha : a = m := by injection h with h1 _
      have ht : t.filter q = [] := by injection h with _ h2
      subst ha
      rw [List.erase_cons_head]
      exact ht
    · rw [List.filter_cons_of_neg hq] at h
      have hm : q m = true := by
        have hmem : m ∈ t.filter q := by rw [h]; simp
        exact (List.mem_filter.mp hmem).2
      have hne : ¬ (a == m) := by
        intro he
        exact hq (by rw [eq_of_beq he]; exact hm)
      rw [List.erase_cons_tail hne, List.filter_cons_of_neg hq]
      exact ih h

lemma unseenLoop_all_ok (sep : Char) :
    ∀ (names keys curF : List Name),
    (∀ n ∈ names, n ≠ [] ∧ n.head? ≠ some '.' ∧ ∀ c ∈ n, (c == sep) = false) →
    unseenLoop sep (fun _ => false) names ⟨names, curF⟩ keys none =
      some (keys ++ names, none,
        ⟨[], curF ++ names.map (fun n => n ++ sep :: seenSuffix)⟩) := by
  intro names
  induction names with
  | nil =>
    intro keys curF _
    simp [unseenLoop]
  | cons n rest ih =>
    intro keys curF h
    obtain ⟨hne, hdot, hsep⟩ := h n (by simp)
    obtain ⟨c, t, rfl⟩ : ∃ c t, n = c :: t := by
      cases n with
      | nil => exact absurd rfl hne
      | cons c t => exact ⟨c, t, rfl⟩
    have hc : ¬ c = '.' := by simpa using hdot
    have hsplit : fieldsFunc (fun r => r == sep) (c :: t) = [c :: t] :=
      fieldsFunc_nosep _ _ hsep (by simp)
    have hrest : ∀ n ∈ rest,
        n ≠ [] ∧ n.head? ≠ some '.' ∧ ∀ x ∈ n, (x == sep) = false :=
      fun m hm => h m (by simp [hm])
    simp only [unseenLoop, hc, if_false, hsplit, List.head?, ite_false]
    rw [List.erase_cons_head]
    rw [ih (keys ++ [c :: t]) (curF ++ [(c :: t) ++ sep :: seenSuffix]) hrest]
    simp

lemma unseenLoop_keys (sep : Char) (fail : Name → Bool) :
    ∀ (names : List Name) (st : MState) (keys0 : List Name)
      (err0 : Option GoError) (keys : List Name) (err : Option GoError)
      (st' : MState),
    unseenLoop sep fail names st keys0 err0 = some (keys, err, st') →
    keys = keys0 ++
      (names.filter (fun n => n.head? != some '.')).map (keyOf sep) := by
  intro names
  induction names with
  | nil =>
    intro st keys0 err0 keys err st' h
    simp only [unseenLoop, Option.some.injEq, Prod.mk.injEq] at h
    simp [h.1.symm]
  | cons n rest ih =>
    intro st keys0 err0 keys err st' h
    cases n with
    | nil => simp [unseenLoop] at h
    | cons c t =>
      by_cases hc : c = '.'
      · simp only [unseenLoop, hc, if_true, ite_true] at h
        have hk := ih _ _ _ _ _ _ h
        simp [hk, List.filter_cons, hc]
      · cases heq : (fieldsFunc (fun r => r == sep) (c :: t)).head? with
        | none => simp [unseenLoop, hc, heq] at h
        | some k =>
          have hkey : keyOf sep (c :: t) = k := by simp [keyOf, heq]
          by_cases hf : fail (c :: t)
          · simp only [unseenLoop, hc, ite_false, heq, hf, if_true] at h
            have hk := ih _ _ _ _ _ _ h
            simp [hk, List.filter_cons, hc, hkey]
          · simp only [unseenLoop, hc, ite_false, heq, hf, if_false] at h
            have hk := ih _ _ _ _ _ _ h
            simp [hk, List.filter_cons, hc, hkey]

/-- C1: the source tests the hostname error with the condition err != err
(maildir.go line 209), which never holds, so a failed hostname lookup is
ignored: with a failing hostname lookup (empty host string, non-nil error)
and a successful random read, Key still returns a complete key and no
error, contradicting the claim that an error is returned and a key only on
success of both. -/
theorem key_returned_despite_hostname_error :
    Key 1 [] (some (.ioError ("lookup failure".toList))) 4 10000
        (.ok (List.replicate 10 0)) =
      .ok ("1..410000".toList ++ List.replicate 20 '0') := by decide

/-- C2: the Go string literals written with octal escapes 057 and 072 in
the source denote the slash and colon characters themselves, so the two
strings.Replace calls replace slash by slash and colon by colon: with
hostname a/b:c the generated key keeps the raw slash and colon and
contains no backslash at all, contradicting the claim that the host field
carries four-character octal escape sequences. -/
theorem key_keeps_raw_slash_and_colon :
    Key 1 ("a/b:c".toList) none 4 10000 (.ok (List.replicate 10 0)) =
        .ok ("1.a/b:c.410000".toList ++ List.replicate 20 '0') ∧
      '/' ∈ ("1.a/b:c.410000".toList ++ List.replicate 20 '0') ∧
      ':' ∈ ("1.a/b:c.410000".toList ++ List.replicate 20 '0') ∧
      '\\' ∉ ("1.a/b:c.410000".toList ++ List.replicate 20 '0') := by decide

/-- C3: when the key resolves to a filename that contains no colon (no
info section), the source indexes split at position 1 of a one-element
split and panics with index out of range (modelled as none), instead of
returning an empty flag list without error as the claim states. -/
theorem flags_panics_without_info_section :
    Flags ("md".toList) [("key".toList)] ("key".toList) = none := by decide

/-- C4: for a key resolving to a filename whose split on colon has a
second field (the info section), Flags classifies that field exactly as
the claim states: too short or second character not a comma gives
FlagError with Experimental false; first character 1 with a comma gives
FlagError with Experimental true; first character 2 with a comma gives the
remaining characters sorted ascending and no error; any other first
character with a comma gives FlagError with Experimental false. -/
theorem flags_info_classification (d key fn stem info : Name)
    (cur : List Name) (rest : List Name)
    (hres : Filename d cur key = .ok fn)
    (hsplit : fieldsFunc (fun r => r == ':') fn = stem :: info :: rest) :
    (info.length < 2 ∨ info[1]? ≠ some ',' →
      Flags d cur key = some (.error (.flagError info false))) ∧
    (info[1]? = some ',' ∧ info[0]? = some '1' →
      Flags d cur key = some (.error (.flagError info true))) ∧
    (info[1]? = some ',' ∧ info[0]? = some '2' →
      ∃ l, Flags d cur key = some (.ok l) ∧
        l.Sorted (fun a b => a ≤ b) ∧ l.Perm (info.drop 2)) ∧
    (info[1]? = some ',' ∧ info[0]? ≠ some '1' ∧ info[0]? ≠ some '2' →
      Flags d cur key = some (.error (.flagError info false))) := by
  have hF : Flags d cur key = some (flagsOfInfo info) := by
    simp [Flags, hres, hsplit]
  refine ⟨?_, ?_, ?_, ?_⟩
  · intro h
    rw [hF]
    simp only [flagsOfInfo, if_pos h]
  · intro h
    have hlen : ¬ info.length < 2 := by
      obtain ⟨hlt, -⟩ := List.getElem?_eq_some.mp h.1
      omega
    rw [hF]
    simp [flagsOfInfo, hlen, h.1, h.2]
  · intro h
    have hlen : ¬ info.length < 2 := by
      obtain ⟨hlt, -⟩ := List.getElem?_eq_some.mp h.1
      omega
    refine ⟨List.insertionSort (fun a b => a ≤ b) (info.drop 2), ?_,
      List.sorted_insertionSort _ _, List.perm_insertionSort _ _⟩
    rw [hF]
    simp [flagsOfInfo, hlen, h.1, h.2]
  · intro h
    have hlen : ¬ info.length < 2 := by
      obtain ⟨hlt, -⟩ := List.getElem?_eq_some.mp h.1
      omega
    rw [hF]
    simp [flagsOfInfo, hlen, h.1, h.2.1, h.2.2]

theorem flags_info_classification_witness :
    ∃ l, Flags ("md".toList) [("key:2,DS".toList)] ("key".toList) =
        some (.ok l) ∧
      l.Sorted (fun a b => a ≤ b) ∧ l.Perm (("2,DS".toList).drop 2) :=
  (flags_info_classification ("md".toList) ("key".toList)
      ("md/cur/key:2,DS".toList) ("md/cur/key".toList) ("2,DS".toList)
      [("key:2,DS".toList)] [] (by decide) (by decide)).2.2.1
    ⟨by decide, by decide⟩

/-- C5: the source reuses one err variable across iterations of the Unseen
loop and returns its final value, so a rename failure on one file is
overwritten by the nil error of a later successful rename: with files a
and b in new where only the rename of a fails, Unseen returns no error at
all, contradicting the claim that the failure is returned regardless of
later successes. -/
theorem unseen_swallows_earlier_rename_error :
    Unseen ':' (fun n => n == ("a".toList))
        ⟨[("a".toList), ("b".toList)], []⟩ =
      some ([("a".toList), ("b".toList)], none,
        ⟨[("a".toList)], [("b:2,S".toList)]⟩) := by decide

/-- C6: on a new directory of nonempty, non-dotfile names containing no
separator character, with all renames succeeding and cur initially empty,
Unseen returns exactly the list of those names as keys with no error,
leaves new empty, and cur holds each name with the separator and the info
suffix 2,S appended. -/
theorem unseen_moves_all (sep : Char) (names : List Name)
    (h : ∀ n ∈ names,
      n ≠ [] ∧ n.head? ≠ some '.' ∧ ∀ c ∈ n, (c == sep) = false) :
    Unseen sep (fun _ => false) ⟨names, []⟩ =
      some (names, none,
        ⟨[], names.map (fun n => n ++ sep :: seenSuffix)⟩) := by
  have hmain := unseenLoop_all_ok sep names [] [] h
  simpa [Unseen] using hmain

theorem unseen_moves_all_witness :
    Unseen ':' (fun _ => false) ⟨[("a".toList), ("b".toList)], []⟩ =
      some ([("a".toList), ("b".toList)], none,
        ⟨[], ([("a".toList), ("b".toList)]).map
          (fun n => n ++ ':' :: seenSuffix)⟩) :=
  unseen_moves_all ':' [("a".toList), ("b".toList)] (by decide)

/-- C7: Filename returns the unique match of the glob pattern key followed
by star in cur when there is exactly one, and a KeyError carrying the key
and the match count whenever that count differs from one. -/
theorem filename_resolution (d : Name) (cur : List Name) (key : Name) :
    (∀ m, matchesOf cur key = [m] →
      Filename d cur key = .ok (curPath d m)) ∧
    ((matchesOf cur key).length ≠ 1 →
      Filename d cur key =
        .error (.keyError key (matchesOf cur key).length)) := by
  rcases h : matchesOf cur key with - | ⟨m1, - | ⟨m2, ms⟩⟩
  · refine ⟨fun m hm => ?_, fun _ => ?_⟩
    · exact absurd hm (by simp)
    · simp [Filename, h]
  · refine ⟨fun m hm => ?_, fun hlen => ?_⟩
    · obtain rfl : m1 = m := by simpa using hm
      simp [Filename, h]
    · exact absurd (by simp : ([m1] : List Name).length = 1) hlen
  · refine ⟨fun m hm => ?_, fun _ => ?_⟩
    · exact absurd hm (by simp)
    · simp [Filename, h]

theorem filename_resolution_witness :
    Filename ("md".toList) [("key".toList), ("key2".toList)]
        ("key".toList) =
      .error (.keyError ("key".toList) 2) :=
  (filename_resolution ("md".toList)
      [("key".toList), ("key2".toList)] ("key".toList)).2 (by decide)

/-- C8: the Keys loop splits each cur name on the literal colon character
(maildir.go line 96) rather than on the configurable Separator variable,
so its output does not depend on the configured separator at all: a name
using a non-default separator such as the semicolon is returned whole,
while a colon-separated name is truncated at the colon. -/
theorem keys_split_on_literal_colon :
    Keys [("key;2,S".toList)] = some [("key;2,S".toList)] ∧
      Keys [("key:2,S".toList)] = some [("key".toList)] := by decide

/-- C9: under the default separator, for a key matching exactly one cur
file, renaming it via SetInfo with info 2,RS or 2,SR (same flags, either
written order) and then reading Flags yields the flag characters R then S
in ascending order with no error, provided the directory path and the key
contain no colon. -/
theorem setinfo_then_flags_sorted (d key m info : Name) (cur : List Name)
    (hd : ∀ c ∈ d, (c == ':') = false)
    (hk : ∀ c ∈ key, (c == ':') = false)
    (hm : matchesOf cur key = [m])
    (hinfo : info = ("2,RS".toList) ∨ info = ("2,SR".toList)) :
    SetInfo ':' cur key info =
        .ok ((cur.erase m) ++ [key ++ ':' :: info]) ∧
      Flags d ((cur.erase m) ++ [key ++ ':' :: info]) key =
        some (.ok ['R', 'S']) := by
  constructor
  · unfold SetInfo
    rw [show matchesOf cur key = [m] from hm]
  · have hmatches : matchesOf ((cur.erase m) ++ [key ++ ':' :: info]) key =
        [key ++ ':' :: info] := by
      unfold matchesOf at hm ⊢
      rw [List.filter_append, filter_singleton_erase _ cur m hm]
      simp [isPrefixOf_self_append]
    have hFn : Filename d ((cur.erase m) ++ [key ++ ':' :: info]) key =
        .ok (curPath d (key ++ ':' :: info)) := by
      unfold Filename
      rw [hmatches]
    have hpath : curPath d (key ++ ':' :: info) =
        (d ++ ('/' :: 'c' :: 'u' :: 'r' :: '/' :: key)) ++ ':' :: info := by
      simp [curPath]
    have hstem : ∀ c ∈ d ++ ('/' :: 'c' :: 'u' :: 'r' :: '/' :: key),
        (c == ':') = false := by
      intro c hc
      rcases List.mem_append.mp hc with h1 | h2
      · exact hd c h1
      · simp only [List.mem_cons] at h2
        rcases h2 with rfl | rfl | rfl | rfl | rfl | hk2
        · decide
        · decide
        · decide
        · decide
        · decide
        · exact hk c hk2
    have hsplit := fieldsFunc_sep (fun r => r == ':') ':'
      (d ++ ('/' :: 'c' :: 'u' :: 'r' :: '/' :: key)) info (by simp)
      hstem (by simp)
    have hinfosplit : fieldsFunc (fun r => r == ':') info = [info] := by
      rcases hinfo with rfl | rfl <;> decide
    rw [hinfosplit] at hsplit
    simp only [Flags, hFn, hpath, hsplit]
    rcases hinfo with rfl | rfl <;> decide

theorem setinfo_then_flags_sorted_witness :
    SetInfo ':' [("key:old".toList)] ("key".toList) ("2,SR".toList) =
        .ok (([("key:old".toList)].erase ("key:old".toList)) ++
          [("key".toList) ++ ':' :: ("2,SR".toList)]) ∧
      Flags ("md".toList)
          (([("key:old".toList)].erase ("key:old".toList)) ++
            [("key".toList) ++ ':' :: ("2,SR".toList)]) ("key".toList) =
        some (.ok ['R', 'S']) :=
  setinfo_then_flags_sorted ("md".toList) ("key".toList)
    ("key:old".toList) ("2,SR".toList) [("key:old".toList)]
    (by decide) (by decide) (by decide) (Or.inr rfl)

/-- C10: whenever Unseen returns without panicking, the returned key list
is exactly the key of every non-dotfile in the new listing, in order,
regardless of which renames failed: the key is appended before the rename
is attempted, so files whose rename failed are still listed. -/
theorem unseen_keys_cover_all (sep : Char) (fail : Name → Bool)
    (st : MState) (keys : List Name) (err : Option GoError) (st' : MState)
    (h : Unseen sep fail st = some (keys, err, st')) :
    keys = (st.newFiles.filter
      (fun n => n.head? != some '.')).map (keyOf sep) := by
  unfold Unseen at h
  simpa using unseenLoop_keys sep fail st.newFiles st [] none keys err st' h

theorem unseen_keys_cover_all_witness :
    [("a".toList), ("b".toList)] =
      (([("a".toList), ("b".toList)]).filter
        (fun n => n.head? != some '.')).map (keyOf ':') :=
  unseen_keys_cover_all ':' (fun n => n == ("a".toList))
    ⟨[("a".toList), ("b".toList)], []⟩ [("a".toList), ("b".toList)] none
    ⟨[("a".toList)], [("b:2,S".toList)]⟩ (by decide)

end Maildir
